import Mathlib

/-!
# Verification of the receipt-ingestion pipeline (kabalot)

A shallow embedding in Lean 4 of the pipeline implemented in the
repository's main server file: the serial job scheduler (two FIFO task
queues), the bounded-concurrency file processor, the content-hash dedup
cache, the Document AI result normalizer (currency conversion and date
normalization), the Gmail attachment classifier, and the Excel artifact
builder.

External collaborators (Document AI annotator, PDF unlock service, Gmail
API, SHA-256 hashing, filesystem) are modelled as an explicit environment
of response functions; everything the source computes from those responses
is translated directly from the JavaScript.
-/

namespace Kabalot

/- Batteries marks the rational primitives `@[irreducible]`, which blocks
`decide`/`rfl` evaluation of concrete expense amounts; restore the default
reducibility inside this development so concrete runs evaluate. -/
attribute [local semireducible] Rat.add Rat.mul Rat.inv

/-! ## String utilities

The source lower-cases strings with `String.prototype.toLowerCase` and
upper-cases with `toUpperCase`; all keywords involved are ASCII or Hebrew
(Hebrew has no letter case), so ASCII case mapping is faithful here.
`strContains` models `String.prototype.includes`, `strEndsWith` models
`endsWith`.
-/

def strLower (s : String) : String := ⟨s.data.map Char.toLower⟩

def strUpper (s : String) : String := ⟨s.data.map Char.toUpper⟩

/-- Does `hay` start with `needle` (character lists)? -/
def leadsWith : List Char → List Char → Bool
  | _, [] => true
  | [], _ :: _ => false
  | a :: as, b :: bs => a == b && leadsWith as bs

/-- Does `hay` contain `needle` as a contiguous sublist? -/
def hasSub (hay needle : List Char) : Bool :=
  leadsWith hay needle ||
    match hay with
    | [] => false
    | _ :: t => hasSub t needle

/-- `hay.includes(needle)` for JavaScript strings. -/
def strContains (hay needle : String) : Bool :=
  hasSub hay.data needle.data

/-- `hay.endsWith(needle)` for JavaScript strings. -/
def strEndsWith (hay needle : String) : Bool :=
  leadsWith hay.data.reverse needle.data.reverse

/-! ## Amount parsing

`cleanAndParseAmount` (source): strip every character except digits, `.`
and `-`, then `parseFloat`; `NaN` becomes `0`.  We model the number line
with `ℚ` (the amounts in play are finite decimals, and no claim depends on
binary floating-point rounding).  `parseFloatQ` models JavaScript
`parseFloat` restricted to inputs over the alphabet `[0-9.\-]` (the only
characters that survive the strip): optional leading minus sign, integer
digits, optional fraction digits; trailing garbage is ignored; `none`
models `NaN`.
-/

def digitVal (c : Char) : Nat := c.toNat - '0'.toNat

/-- Split off the leading run of decimal digits. -/
def takeDigits : List Char → List Char × List Char
  | [] => ([], [])
  | c :: t =>
    if c.isDigit then
      let (ds, rest) := takeDigits t
      (c :: ds, rest)
    else ([], c :: t)

def digitsToNat (ds : List Char) : Nat :=
  ds.foldl (fun acc c => 10 * acc + digitVal c) 0

def parseFloatQ (cs : List Char) : Option ℚ :=
  let (neg, cs1) :=
    match cs with
    | '-' :: t => (true, t)
    | _ => (false, cs)
  let (ip, cs2) := takeDigits cs1
  let fp :=
    match cs2 with
    | '.' :: t => (takeDigits t).1
    | _ => []
  if ip.isEmpty && fp.isEmpty then none
  else
    let mag : ℚ :=
      (digitsToNat ip : ℚ) + (digitsToNat fp : ℚ) / ((10 : ℚ) ^ fp.length)
    some (if neg then -mag else mag)

/-- Characters kept by the strip regex `[^0-9.\-]` in `cleanAndParseAmount`. -/
def keptChar (c : Char) : Bool := c.isDigit || c == '.' || c == '-'

/-- Source `cleanAndParseAmount`: falsy input gives 0; otherwise strip and
`parseFloat`, with `NaN` collapsed to 0. -/
def cleanAndParseAmount (s : String) : ℚ :=
  if s = "" then 0
  else
    match parseFloatQ (s.data.filter keptChar) with
    | none => 0
    | some q => q

/-! ## Dates

The source normalizes the invoice date with `date-fns`:
`parse(invoiceDate, fmt, new Date())` is attempted over a fixed ordered
list of format strings, the first attempt that does not produce an
`Invalid Date` wins, and `format(d, 'yyyy-MM-dd')` renders the result.

`date-fns` v2 parsing semantics modelled here:
* `yyyy` consumes 1–4 leading digits (greedy);
* `MM` and `dd` consume 1–2 leading digits (greedy);
* `MMMM` / `MMM` match a full / abbreviated English month name
  case-insensitively as a prefix of the remaining input;
* literal separators must match exactly;
* leftover characters after the format make the parse invalid;
* the month must be 1–12 and the day at most the length of that month in
  that year (leap years included), otherwise the parse is invalid.
-/

structure YMD where
  year : Nat
  month : Nat
  day : Nat
deriving DecidableEq, Repr

def isLeapYear (y : Nat) : Bool :=
  (y % 4 == 0 && y % 100 != 0) || y % 400 == 0

def daysInMonth (y m : Nat) : Nat :=
  if m == 2 then (if isLeapYear y then 29 else 28)
  else if m == 4 || m == 6 || m == 9 || m == 11 then 30
  else 31

def validYMD (d : YMD) : Bool :=
  1 ≤ d.month && d.month ≤ 12 && 1 ≤ d.day && d.day ≤ daysInMonth d.year d.month

/-- Consume at most `bound` leading digits, greedily; returns how many
were consumed, their value, and the rest. -/
def grabDigits (bound : Nat) (cs : List Char) : Nat × Nat × List Char :=
  match bound, cs with
  | 0, _ => (0, 0, cs)
  | _, [] => (0, 0, cs)
  | b + 1, c :: t =>
    if c.isDigit then
      let (cnt, v, rest) := grabDigits b t
      (cnt + 1, digitVal c * 10 ^ cnt + v, rest)
    else (0, 0, c :: t)

/-- `date-fns` numeric token: between 1 and `bound` leading digits, greedy. -/
def parseDigitsTok (bound : Nat) (cs : List Char) : Option (Nat × List Char) :=
  let (cnt, v, rest) := grabDigits bound cs
  if cnt == 0 then none else some (v, rest)

def parseLit (c : Char) (cs : List Char) : Option (List Char) :=
  match cs with
  | x :: t => if x == c then some t else none
  | [] => none

def monthNamesLong : List String :=
  ["january", "february", "march", "april", "may", "june", "july",
   "august", "september", "october", "november", "december"]

def monthNamesShort : List String :=
  ["jan", "feb", "mar", "apr", "may", "jun", "jul", "aug", "sep", "oct",
   "nov", "dec"]

/-- Match a month name (from `names`, already lower case) case-insensitively
as a prefix of `cs`; returns the month number (1-based) and the rest. -/
def parseMonthName (names : List String) (cs : List Char) :
    Option (Nat × List Char) :=
  let lowered := cs.map Char.toLower
  let rec go : List String → Nat → Option (Nat × List Char)
    | [], _ => none
    | n :: rest, i =>
      if leadsWith lowered n.data then
        some (i, cs.drop n.length)
      else go rest (i + 1)
  go names 1

/-- The ten format strings of the source's `dateFormats` array, as an
enumeration (in source order). -/
inductive DFmt
  | ymdDash | mdySlash | dmySlash | dmyDash | mdyDash
  | ymdSlash | dmyDot | ymdDot | monthLong | monthShort
deriving DecidableEq, Repr

def fmtText : DFmt → String
  | .ymdDash => "yyyy-MM-dd"
  | .mdySlash => "MM/dd/yyyy"
  | .dmySlash => "dd/MM/yyyy"
  | .dmyDash => "dd-MM-yyyy"
  | .mdyDash => "MM-dd-yyyy"
  | .ymdSlash => "yyyy/MM/dd"
  | .dmyDot => "dd.MM.yyyy"
  | .ymdDot => "yyyy.MM.dd"
  | .monthLong => "MMMM dd, yyyy"
  | .monthShort => "MMM dd, yyyy"

/-- The source's `dateFormats` array, in its exact order. -/
def dateFormats : List DFmt :=
  [.ymdDash, .mdySlash, .dmySlash, .dmyDash, .mdyDash,
   .ymdSlash, .dmyDot, .ymdDot, .monthLong, .monthShort]

/-- Parse three numeric fields separated by `sep`, with digit bounds
`b1 b2 b3`, requiring the whole input to be consumed. -/
def parseSep3 (sep : Char) (b1 b2 b3 : Nat) (cs : List Char) :
    Option (Nat × Nat × Nat) := do
  let (v1, r1) ← parseDigitsTok b1 cs
  let r1 ← parseLit sep r1
  let (v2, r2) ← parseDigitsTok b2 r1
  let r2 ← parseLit sep r2
  let (v3, r3) ← parseDigitsTok b3 r2
  if r3.isEmpty then some (v1, v2, v3) else none

/-- Parse "<month name> dd, yyyy", requiring full consumption. -/
def parseMonthNameFmt (names : List String) (cs : List Char) :
    Option (Nat × Nat × Nat) := do
  let (m, r1) ← parseMonthName names cs
  let r1 ← parseLit ' ' r1
  let (d, r2) ← parseDigitsTok 2 r1
  let r2 ← parseLit ',' r2
  let r2 ← parseLit ' ' r2
  let (y, r3) ← parseDigitsTok 4 r2
  if r3.isEmpty then some (m, d, y) else none

/-- `date-fns` `parse(s, fmt, ref)` for the formats the source uses;
`none` models `Invalid Date`. -/
def parseWithFormat (fmt : DFmt) (s : String) : Option YMD :=
  let cs := s.data
  let raw : Option YMD :=
    match fmt with
    | .ymdDash =>
      (parseSep3 '-' 4 2 2 cs).map fun (y, m, d) => ⟨y, m, d⟩
    | .mdySlash =>
      (parseSep3 '/' 2 2 4 cs).map fun (m, d, y) => ⟨y, m, d⟩
    | .dmySlash =>
      (parseSep3 '/' 2 2 4 cs).map fun (d, m, y) => ⟨y, m, d⟩
    | .dmyDash =>
      (parseSep3 '-' 2 2 4 cs).map fun (d, m, y) => ⟨y, m, d⟩
    | .mdyDash =>
      (parseSep3 '-' 2 2 4 cs).map fun (m, d, y) => ⟨y, m, d⟩
    | .ymdSlash =>
      (parseSep3 '/' 4 2 2 cs).map fun (y, m, d) => ⟨y, m, d⟩
    | .dmyDot =>
      (parseSep3 '.' 2 2 4 cs).map fun (d, m, y) => ⟨y, m, d⟩
    | .ymdDot =>
      (parseSep3 '.' 4 2 2 cs).map fun (y, m, d) => ⟨y, m, d⟩
    | .monthLong =>
      (parseMonthNameFmt monthNamesLong cs).map fun (m, d, y) => ⟨y, m, d⟩
    | .monthShort =>
      (parseMonthNameFmt monthNamesShort cs).map fun (m, d, y) => ⟨y, m, d⟩
  match raw with
  | some d => if validYMD d then some d else none
  | none => none

/-- The source's format-fallback loop: try `dateFormats` in order, first
successful parse wins. -/
def firstParse (fmts : List DFmt) (s : String) : Option YMD :=
  match fmts with
  | [] => none
  | f :: rest =>
    match parseWithFormat f s with
    | some d => some d
    | none => firstParse rest s

def padNat (width n : Nat) : String :=
  let digits := (toString n)
  ⟨List.replicate (width - digits.length) '0'⟩ ++ digits

/-- `format(d, 'yyyy-MM-dd')` (`formatDate` in the source). -/
def formatYMD (d : YMD) : String :=
  padNat 4 d.year ++ "-" ++ padNat 2 d.month ++ "-" ++ padNat 2 d.day

/-- The date-normalization block of `parseReceiptWithDocumentAI`, applied
to a non-empty raw date string: the first format that parses wins and is
re-rendered as `yyyy-MM-dd`; if none parses, the current processing date
(`new Date()`, here `today`) is used. -/
def normalizeInvoiceDate (today : YMD) (s : String) : String :=
  match firstParse dateFormats s with
  | some d => formatYMD d
  | none => formatYMD today

/-! ## Document AI entities and the normalizer

`parseReceiptWithDocumentAI` sends the file to the Document AI processor
and normalizes the returned entity list.  We model the annotator's
response as data: an entity list plus the primary language
(`getPrimaryLanguage(detectDocumentLanguages(document, text))`, which is
computed purely from the annotator's response and defaults to `"en"`; the
language-detection plumbing itself is external-collaborator output and no
claim depends on its internals, so the response carries it directly).
`none` for `money` models an entity without
`normalizedValue.moneyValue`. -/

structure MoneyValue where
  amount : String
  currencyCode : String
deriving DecidableEq, Repr

structure Entity where
  etype : String
  mentionText : String
  money : Option MoneyValue
deriving DecidableEq, Repr

structure AnnotatorDoc where
  entities : List Entity
  primaryLanguage : String
deriving DecidableEq, Repr

/-- The normalized expense record skeleton built by
`parseReceiptWithDocumentAI`.  The numeric fields start life as the empty
string and are overwritten with numbers, modelled as `Option ℚ` with
`none` for the initial `''`.  (`LanguageDirection` and
`DetectedLanguages` are presentation-only renderings of the same
language data and are not modelled.) -/
structure ExpenseRecord where
  FileName : String
  BusinessName : String
  BusinessNumber : String
  Date : String
  InvoiceNumber : String
  OriginalTotalUSD : Option ℚ
  PriceWithoutVat : Option ℚ
  VAT : Option ℚ
  TotalPrice : Option ℚ
  Currency : String
  Language : String
deriving DecidableEq, Repr

/-- Source `detectCurrency(value, preferredLanguage)`: USD markers first,
ILS markers second, otherwise a default chosen by language. -/
def detectCurrency (value : String) (preferredLanguage : String) : String :=
  if value = "" then
    (if preferredLanguage = "iw" then "ILS" else "USD")
  else
    let normalized := strUpper value
    if strContains normalized "$" || strContains normalized "USD" ||
        strContains normalized "DOLLAR" || strContains normalized "דולר" then
      "USD"
    else if strContains normalized "₪" || strContains normalized "ILS" ||
        strContains normalized "NIS" || strContains normalized "שח" ||
        strContains normalized "ש\"ח" then
      "ILS"
    else if preferredLanguage = "iw" then "ILS" else "USD"

/-- The `value` used by both entity passes: the normalized money amount if
present, else the mention text. -/
def entityValue (e : Entity) : String :=
  match e.money with
  | some m => m.amount
  | none => e.mentionText

/-- First entity pass of `parseReceiptWithDocumentAI`: detect whether any
entity is USD-denominated and capture the first `Date` entity's text,
breaking out early once both are known. -/
def scanPass (lang : String) : List Entity → Bool → String → Bool × String
  | [], hasUSD, invoiceDate => (hasUSD, invoiceDate)
  | e :: rest, hasUSD, invoiceDate =>
    let value := entityValue e
    let currencyCode :=
      match e.money with
      | some m => m.currencyCode
      | none => detectCurrency value lang
    let hasUSD2 := hasUSD || currencyCode == "USD"
    let invoiceDate2 :=
      if e.etype == "Date" && invoiceDate == "" then value else invoiceDate
    if hasUSD2 && !(invoiceDate2 == "") then (hasUSD2, invoiceDate2)
    else scanPass lang rest hasUSD2 invoiceDate2

/-- The process-wide `exchangeRateCache` object, keyed by the normalized
invoice date. -/
abbrev RateCache : Type := List (String × ℚ)

def rcLookup (rc : RateCache) (k : String) : Option ℚ :=
  match rc with
  | [] => none
  | (k2, v) :: t => if k2 = k then some v else rcLookup t k

def rcSet (rc : RateCache) (k : String) (v : ℚ) : RateCache :=
  match rc with
  | [] => [(k, v)]
  | (k2, v2) :: t => if k2 = k then (k, v) :: t else (k2, v2) :: rcSet t k v

/-- Source `getUsdToIlsExchangeRate` is a stub returning the constant 3.5
regardless of the date. -/
def getUsdToIlsExchangeRate (_date : String) : ℚ := 7 / 2

/-- Second entity pass: the fixed entity-type table filling the record
fields, accumulating `originalUSD` over `Price-Without-Vat` entities and
`convertedTotalPrice` over `Total-Price` entities when USD was detected.
`rate` is the exchange rate (never read when `hasUSD` is false, matching
the source where `exchangeRate` stays undefined in that case). -/
def fieldsPass (hasUSD : Bool) (rate : ℚ) :
    List Entity → ExpenseRecord → ℚ → ℚ → ExpenseRecord × ℚ × ℚ
  | [], rec, originalUSD, convertedTotalPrice =>
    (rec, originalUSD, convertedTotalPrice)
  | e :: rest, rec, originalUSD, convertedTotalPrice =>
    let value := entityValue e
    if e.etype == "Business-Name" then
      fieldsPass hasUSD rate rest { rec with BusinessName := value }
        originalUSD convertedTotalPrice
    else if e.etype == "Business-Number" then
      fieldsPass hasUSD rate rest { rec with BusinessNumber := value }
        originalUSD convertedTotalPrice
    else if e.etype == "Invoice-Number" then
      fieldsPass hasUSD rate rest { rec with InvoiceNumber := value }
        originalUSD convertedTotalPrice
    else if e.etype == "Price-Without-Vat" then
      let priceWithoutVat := cleanAndParseAmount value
      if hasUSD then
        fieldsPass hasUSD rate rest
          { rec with PriceWithoutVat := some (priceWithoutVat * rate) }
          (originalUSD + priceWithoutVat) convertedTotalPrice
      else
        fieldsPass hasUSD rate rest
          { rec with PriceWithoutVat := some priceWithoutVat }
          originalUSD convertedTotalPrice
    else if e.etype == "VAT" then
      let vat := cleanAndParseAmount value
      fieldsPass hasUSD rate rest
        { rec with VAT := some (if hasUSD then vat * rate else vat) }
        originalUSD convertedTotalPrice
    else if e.etype == "Total-Price" then
      let totalPrice := cleanAndParseAmount value
      if hasUSD then
        fieldsPass hasUSD rate rest rec originalUSD (totalPrice * rate)
      else
        fieldsPass hasUSD rate rest { rec with TotalPrice := some totalPrice }
          originalUSD convertedTotalPrice
    else
      fieldsPass hasUSD rate rest rec originalUSD convertedTotalPrice

/-- The pure core of `parseReceiptWithDocumentAI`, applied to a
successfully returned document: both entity passes, date normalization,
exchange-rate cache lookup/fetch, and final USD bookkeeping.  Returns the
record, the updated `exchangeRateCache`, and how many times
`getUsdToIlsExchangeRate` was called (0 or 1). -/
def normalizeDoc (today : YMD) (fileName : String) (doc : AnnotatorDoc)
    (rc : RateCache) : ExpenseRecord × RateCache × Nat :=
  let lang := doc.primaryLanguage
  let (hasUSD, rawDate) := scanPass lang doc.entities false ""
  let invoiceDate :=
    if rawDate == "" then formatYMD today else normalizeInvoiceDate today rawDate
  let (rate, rc2, fetches) :=
    if hasUSD then
      match rcLookup rc invoiceDate with
      | some r =>
        if r == 0 then
          let f := getUsdToIlsExchangeRate invoiceDate
          (f, rcSet rc invoiceDate f, 1)
        else (r, rc, 0)
      | none =>
        let f := getUsdToIlsExchangeRate invoiceDate
        (f, rcSet rc invoiceDate f, 1)
    else (0, rc, 0)
  let init : ExpenseRecord :=
    { FileName := fileName, BusinessName := "", BusinessNumber := "",
      Date := invoiceDate, InvoiceNumber := "", OriginalTotalUSD := none,
      PriceWithoutVat := none, VAT := none, TotalPrice := none,
      Currency := "", Language := lang }
  let (rec, originalUSD, convertedTotalPrice) :=
    fieldsPass hasUSD rate doc.entities init 0 0
  let rec2 :=
    if hasUSD then
      { rec with OriginalTotalUSD := some originalUSD, Currency := "ILS",
                 TotalPrice := some convertedTotalPrice }
    else { rec with Currency := "ILS" }
  (rec2, rc2, fetches)

/-! ## processFile, the content-hash cache, and the per-file handler

JavaScript truthiness drives several branches, so the value universe is
made explicit:
* `parseReceiptWithDocumentAI` returns either a populated record or, when
  the annotator request fails or returns a non-200 status, the empty
  object `{}` — which is *truthy*;
* `processFile` returns `null` — falsy — when an encrypted PDF fails to
  unlock.

Collaborator responses are an explicit environment keyed by the file
path; identical content means the environment answers identically.
-/

/-- A truthy object value flowing out of `parseReceiptWithDocumentAI`:
either the empty object `{}` (error path) or an expense record. -/
inductive JSObj
  | empty
  | record (r : ExpenseRecord)
deriving DecidableEq, Repr

/-- Result of `processFile`: `null` (unlock failure) or a truthy object. -/
inductive ProcResult
  | nullv
  | obj (o : JSObj)
deriving DecidableEq, Repr

def ProcResult.truthy : ProcResult → Bool
  | .nullv => false
  | .obj _ => true

/-- Collaborator environment: `checksum` models `getFileChecksum`
(`none` = the promise rejects), `encrypted` models `isPdfEncrypted`
(which also answers `true` when the probe itself errors), `unlockOk`
models whether `unlockPdf` returns an unlocked path or `null`, and
`annotate` models the Document AI request (`none` = request error or
non-200 response, which the source turns into `{}`). -/
structure Env where
  today : YMD
  checksum : String → Option String
  encrypted : String → Bool
  unlockOk : String → Bool
  annotate : String → Option AnnotatorDoc

/-- `path.extname(filePath).toLowerCase() === '.pdf'`. -/
def isPdfName (filePath : String) : Bool :=
  strEndsWith (strLower filePath) ".pdf"

/-- Counters for collaborator invocations, to state the claims about
which calls a cache hit avoids. -/
structure Calls where
  processFileCalls : Nat
  unlockCalls : Nat
  annotateCalls : Nat
deriving DecidableEq, Repr

def Calls.zero : Calls := ⟨0, 0, 0⟩

/-- The mutable process-wide state threaded through the pipeline: the
`processedFileCache` Map (insertion order, head oldest), the
`exchangeRateCache`, and call counters. -/
structure PState where
  cache : List (String × JSObj)
  rates : RateCache
  calls : Calls
deriving Repr

/-- `Map.get` on the processed-file cache. -/
def cacheLookup (c : List (String × JSObj)) (k : String) : Option JSObj :=
  match c with
  | [] => none
  | (k2, v) :: t => if k2 = k then some v else cacheLookup t k

/-- `Map.delete` on the processed-file cache. -/
def eraseKey (c : List (String × JSObj)) (k : String) :
    List (String × JSObj) :=
  match c with
  | [] => []
  | (k2, v) :: t => if k2 = k then t else (k2, v) :: eraseKey t k

/-- Source `rememberCacheEntry(key, value)`: refresh recency by
delete-then-set, then evict the oldest key (`keys().next().value`: the
first in insertion order) once the size exceeds
`PROCESSED_FILE_CACHE_LIMIT`.  The `!value` half of the guard can never
fire here because every stored value is an object (truthy). -/
def rememberCacheEntry (limit : Nat) (c : List (String × JSObj))
    (k : String) (v : JSObj) : List (String × JSObj) :=
  if k = "" then c
  else
    let c1 := if (cacheLookup c k).isSome then eraseKey c k else c
    let c2 := c1 ++ [(k, v)]
    if limit < c2.length then c2.tail else c2

/-- Source `parseReceiptWithDocumentAI`: one annotator request; a failed
request (or non-200) yields the empty object, a successful one yields the
normalized record.  (The skeleton/normalization core is `normalizeDoc`.) -/
def parseReceiptWithDocumentAI (env : Env) (filePath : String)
    (st : PState) : JSObj × PState :=
  let st1 := { st with calls.annotateCalls := st.calls.annotateCalls + 1 }
  match env.annotate filePath with
  | none => (.empty, st1)
  | some doc =>
    let (r, rc2, _) := normalizeDoc env.today filePath doc st1.rates
    (.record r, { st1 with rates := rc2 })

/-- Source `processFile`: PDFs are probed for encryption and unlocked if
needed (`null` when the unlock collaborator fails), then the file goes to
the annotator. -/
def processFile (env : Env) (filePath : String) (st : PState) :
    ProcResult × PState :=
  let st1 := { st with calls.processFileCalls := st.calls.processFileCalls + 1 }
  if isPdfName filePath then
    if env.encrypted filePath then
      let st2 := { st1 with calls.unlockCalls := st1.calls.unlockCalls + 1 }
      if env.unlockOk filePath then
        let (o, st3) := parseReceiptWithDocumentAI env filePath st2
        (.obj o, st3)
      else (.nullv, st2)
    else
      let (o, st3) := parseReceiptWithDocumentAI env filePath st1
      (.obj o, st3)
  else
    let (o, st3) := parseReceiptWithDocumentAI env filePath st1
    (.obj o, st3)

/-- Source `getExpenseDataWithCache`: hash the content, consult the
cache, otherwise process and memoize any truthy result.  A checksum
failure is caught and the file is processed directly, without caching. -/
def getExpenseDataWithCache (env : Env) (limit : Nat) (st : PState)
    (filePath : String) : ProcResult × PState :=
  match env.checksum filePath with
  | none => processFile env filePath st
  | some h =>
    match cacheLookup st.cache h with
    | some v => (.obj v, st)
    | none =>
      let (res, st2) := processFile env filePath st
      match res with
      | .nullv => (res, st2)
      | .obj v =>
        (res, { st2 with cache := rememberCacheEntry limit st2.cache h v })

/-! ## The per-file handler and a batch run -/

inductive FStatus
  | pending
  | processing
  | completed
  | failed
deriving DecidableEq, Repr

/-- One `progressData` entry. -/
structure FileProg where
  fileName : String
  status : FStatus
  progress : Nat
  businessName : String
deriving DecidableEq, Repr

def listModify (f : α → α) : Nat → List α → List α
  | _, [] => []
  | 0, x :: t => f x :: t
  | n + 1, x :: t => x :: listModify f n t

/-- `expenseData.BusinessName || 'N/A'` for a truthy result. -/
def displayBusinessName : JSObj → String
  | .empty => "N/A"
  | .record r => if r.BusinessName = "" then "N/A" else r.BusinessName

/-- The per-file handler passed to `processFilesConcurrently` by
`processNextTask`: mark `Processing`, run the cached pipeline, then mark
`Completed` (truthy result, which is pushed onto `expenses`) or
`Failed`. -/
def perFileHandler (env : Env) (limit : Nat)
    (acc : PState × List FileProg × List JSObj) (i : Nat)
    (filePath : String) : PState × List FileProg × List JSObj :=
  let (st, prog, expenses) := acc
  let prog1 := listModify
    (fun f => { f with status := .processing, progress := 25 }) i prog
  let (res, st2) := getExpenseDataWithCache env limit st filePath
  match res with
  | .obj v =>
    (st2,
     listModify (fun f => { f with status := .completed, progress := 100,
                                   businessName := displayBusinessName v })
       i prog1,
     expenses ++ [v])
  | .nullv =>
    (st2,
     listModify (fun f => { f with status := .failed, progress := 100 })
       i prog1,
     expenses)

def initProg (files : List String) : List FileProg :=
  files.map fun f => ⟨f, .pending, 0, ""⟩

def runBatchFrom (env : Env) (limit : Nat) :
    List String → Nat → PState × List FileProg × List JSObj →
    PState × List FileProg × List JSObj
  | [], _, acc => acc
  | f :: rest, i, acc =>
    runBatchFrom env limit rest (i + 1) (perFileHandler env limit acc i f)

/-- A whole-batch run of the upload job's per-file handler over the file
list, in index order (one linearization of the worker pool; each handler
writes only its own `progressData` slot). -/
def runBatch (env : Env) (limit : Nat) (st : PState) (files : List String) :
    PState × List FileProg × List JSObj :=
  runBatchFrom env limit files 0 (st, initProg files, [])

/-! ## The Excel artifact (`createExpenseExcel`)

We model the worksheet content: the data rows appended per expense and
the trailing totals row.  A cell that `addRow` is never given (the key is
absent from the row object) is modelled as `none`; styling (bold,
alignment, number formats, RTL view) and the on-disk filename are
presentation and I/O, outside the content model. -/

structure SheetRow where
  FileName : String
  BusinessName : String
  BusinessNumber : String
  Date : String
  InvoiceNumber : String
  OriginalTotalUSD : Option ℚ
  PriceWithoutVat : Option ℚ
  VAT : Option ℚ
  TotalPrice : Option ℚ
deriving DecidableEq, Repr

/-- `expense['X'] ? parseFloat(expense['X']) : 0` — the field is either
absent/empty (falsy) or already numeric; `0` is falsy but also maps to
`0`. -/
def numOrZero : Option ℚ → ℚ
  | none => 0
  | some q => q

/-- One `worksheet.addRow` per expense, exactly as in the `forEach`. -/
def expenseDataRow (e : ExpenseRecord) : SheetRow :=
  let originalUSD := numOrZero e.OriginalTotalUSD
  { FileName := e.FileName, BusinessName := e.BusinessName,
    BusinessNumber := e.BusinessNumber, Date := e.Date,
    InvoiceNumber := e.InvoiceNumber,
    OriginalTotalUSD := if 0 < originalUSD then some originalUSD else none,
    PriceWithoutVat := some (numOrZero e.PriceWithoutVat),
    VAT := some (numOrZero e.VAT),
    TotalPrice := some (numOrZero e.TotalPrice) }

/-- The `expenses.forEach` loop of `createExpenseExcel`: appends one row
per expense while accumulating the four numeric totals
(`totalOriginalUSD`, `totalWithoutVat`, `totalVAT`, `totalPrice`). -/
def excelLoop : List ExpenseRecord → List SheetRow → ℚ → ℚ → ℚ → ℚ →
    List SheetRow × ℚ × ℚ × ℚ × ℚ
  | [], rows, totalWithoutVat, totalVAT, totalPrice, totalOriginalUSD =>
    (rows, totalWithoutVat, totalVAT, totalPrice, totalOriginalUSD)
  | e :: rest, rows, totalWithoutVat, totalVAT, totalPrice,
      totalOriginalUSD =>
    let originalUSD := numOrZero e.OriginalTotalUSD
    let priceWithoutVatValue := numOrZero e.PriceWithoutVat
    let vatValue := numOrZero e.VAT
    let totalPriceValue := numOrZero e.TotalPrice
    excelLoop rest (rows ++ [expenseDataRow e])
      (totalWithoutVat + priceWithoutVatValue) (totalVAT + vatValue)
      (totalPrice + totalPriceValue) (totalOriginalUSD + originalUSD)

/-- Source `createExpenseExcel`, content part: the data rows and the
totals row.  The loop accumulates all four numeric totals, but the totals
`addRow` writes only `FileName`, `PriceWithoutVat`, `VAT` and
`TotalPrice` — `totalOriginalUSD` is computed and then dropped, so the
original-USD column has no totals cell.  (Styling, number formats, the
RTL view and the on-disk filename are presentation and I/O, outside the
content model.) -/
def createExpenseExcel (expenses : List ExpenseRecord) :
    List SheetRow × SheetRow :=
  let (rows, totalWithoutVat, totalVAT, totalPrice, _totalOriginalUSD) :=
    excelLoop expenses [] 0 0 0 0
  let totalsRow : SheetRow :=
    { FileName := "Total", BusinessName := "", BusinessNumber := "",
      Date := "", InvoiceNumber := "", OriginalTotalUSD := none,
      PriceWithoutVat := some totalWithoutVat, VAT := some totalVAT,
      TotalPrice := some totalPrice }
  (rows, totalsRow)

/-! ## The job scheduler (`taskQueue` / `gmailTaskQueue`)

The server keeps two independent FIFO queues, each with an
`isProcessing` flag.  `POST /upload` pushes a task and starts
`processNextTask` only when the queue is idle; the `finally` block of a
finished task clears the flag and calls `processNextTask` again, which
dequeues the next task (setting the flag) or leaves the queue idle.
Jobs are identified by (session) ids; the observable history is logged
in `trace`. -/

inductive QEv
  | subm (j : Nat)
  | start (j : Nat)
  | fin (j : Nat)
deriving DecidableEq, Repr

/-- One queue's state: the pending array, the `isProcessing` flag, the
task currently being run by `processNextTask` (if any), and the event
log. -/
structure QState where
  queue : List Nat
  isProcessing : Bool
  running : Option Nat
  trace : List QEv
deriving DecidableEq, Repr

def QState.init : QState := ⟨[], false, none, []⟩

/-- Source `processNextTask` / `processNextGmailTask` up to its first
suspension: empty queue clears the flag; otherwise set the flag, shift
the queue, and begin running the dequeued task. -/
def processNextTask (s : QState) : QState :=
  match s.queue with
  | [] => { s with isProcessing := false }
  | j :: rest =>
    { queue := rest, isProcessing := true, running := some j,
      trace := s.trace ++ [.start j] }

/-- The `POST /upload` (resp. `/process-gmail`) handler: push the task;
if the queue is busy only a queue-position event is emitted, otherwise
`processNextTask` is invoked. -/
def submitTask (s : QState) (j : Nat) : QState :=
  let s1 := { s with queue := s.queue ++ [j], trace := s.trace ++ [.subm j] }
  if s1.isProcessing then s1 else processNextTask s1

/-- The running task reaches its `finally` block (terminal state,
whether completed, completed-empty, or failed — the job-level `catch`
feeds all of them here): clear the flag and call `processNextTask`. -/
def finishTask (s : QState) : QState :=
  match s.running with
  | none => s
  | some j =>
    processNextTask
      { s with running := none, isProcessing := false,
               trace := s.trace ++ [.fin j] }

/-- The whole scheduler: the upload queue and the Gmail queue, stepped by
interleaved events. -/
structure SchedState where
  up : QState
  gm : QState
deriving DecidableEq, Repr

inductive SchedEv
  | submUp (j : Nat)
  | finUp
  | submGm (j : Nat)
  | finGm
deriving DecidableEq, Repr

def schedInit : SchedState := ⟨QState.init, QState.init⟩

def schedStep (s : SchedState) : SchedEv → SchedState
  | .submUp j => { s with up := submitTask s.up j }
  | .finUp => { s with up := finishTask s.up }
  | .submGm j => { s with gm := submitTask s.gm j }
  | .finGm => { s with gm := finishTask s.gm }

def schedRun (evs : List SchedEv) : SchedState :=
  evs.foldl schedStep schedInit

/-- The jobs submitted so far, in order. -/
def submsOf (t : List QEv) : List Nat :=
  t.filterMap fun e => match e with | .subm j => some j | _ => none

/-- The jobs whose processing has begun, in start order. -/
def startsOf (t : List QEv) : List Nat :=
  t.filterMap fun e => match e with | .start j => some j | _ => none

/-- The jobs that have reached a terminal state, in completion order. -/
def finsOf (t : List QEv) : List Nat :=
  t.filterMap fun e => match e with | .fin j => some j | _ => none

/-- The per-queue scheduler invariant: the flag mirrors whether a task is
running, an idle queue is empty, every started job except the currently
running one has finished (in start order), and the started jobs followed
by the still-queued ones are exactly the submissions in order (FIFO, no
skip, no duplication, no reordering). -/
def QInv (s : QState) : Prop :=
  s.isProcessing = s.running.isSome ∧
  (s.isProcessing = false → s.queue = []) ∧
  startsOf s.trace = finsOf s.trace ++ s.running.toList ∧
  submsOf s.trace = startsOf s.trace ++ s.queue

theorem startsOf_append (t u : List QEv) :
    startsOf (t ++ u) = startsOf t ++ startsOf u := by
  simp [startsOf]

theorem finsOf_append (t u : List QEv) :
    finsOf (t ++ u) = finsOf t ++ finsOf u := by
  simp [finsOf]

theorem submsOf_append (t u : List QEv) :
    submsOf (t ++ u) = submsOf t ++ submsOf u := by
  simp [submsOf]

theorem startsOf_subm (j : Nat) : startsOf [QEv.subm j] = [] := rfl

theorem startsOf_start (j : Nat) : startsOf [QEv.start j] = [j] := rfl

theorem startsOf_fin (j : Nat) : startsOf [QEv.fin j] = [] := rfl

theorem finsOf_subm (j : Nat) : finsOf [QEv.subm j] = [] := rfl

theorem finsOf_start (j : Nat) : finsOf [QEv.start j] = [] := rfl

theorem finsOf_fin (j : Nat) : finsOf [QEv.fin j] = [j] := rfl

theorem submsOf_subm (j : Nat) : submsOf [QEv.subm j] = [j] := rfl

theorem submsOf_start (j : Nat) : submsOf [QEv.start j] = [] := rfl

theorem submsOf_fin (j : Nat) : submsOf [QEv.fin j] = [] := rfl

theorem qinv_init : QInv QState.init := by
  refine ⟨rfl, fun _ => rfl, rfl, rfl⟩

theorem qinv_submitTask (s : QState) (j : Nat) (h : QInv s) :
    QInv (submitTask s j) := by
  obtain ⟨h1, h2, h3, h4⟩ := h
  by_cases hp : s.isProcessing = true
  · refine ⟨?_, ?_, ?_, ?_⟩ <;>
      simp only [submitTask, hp, if_true, QInv, startsOf_append,
        finsOf_append, submsOf_append, startsOf_subm, finsOf_subm,
        submsOf_subm, List.append_nil]
    · exact hp ▸ h1
    · intro hf; exact absurd hf (by simp)
    · exact h3
    · rw [h4, List.append_assoc]
  · have hp' : s.isProcessing = false := by
      revert hp; cases s.isProcessing <;> simp
    have hr : s.running = none := by
      revert h1; rw [hp']; cases s.running <;> simp
    have hq : s.queue = [] := h2 hp'
    rw [hr] at h3; simp only [Option.toList_none, List.append_nil] at h3
    rw [hq] at h4; simp only [List.append_nil] at h4
    refine ⟨?_, ?_, ?_, ?_⟩ <;>
      simp only [submitTask, hp', hq, Bool.false_eq_true, if_false,
        List.nil_append, processNextTask, startsOf_append, finsOf_append,
        submsOf_append, startsOf_subm, finsOf_subm, submsOf_subm,
        startsOf_start, finsOf_start, submsOf_start, List.append_nil,
        Option.toList_some, Option.isSome_some]
    · intro hf; exact absurd hf (by simp)
    · simp [h3]
    · simp [h4]

theorem qinv_finishTask (s : QState) (h : QInv s) :
    QInv (finishTask s) := by
  obtain ⟨h1, h2, h3, h4⟩ := h
  cases hr : s.running with
  | none =>
    have : finishTask s = s := by simp [finishTask, hr]
    rw [this]; exact ⟨h1, h2, h3, h4⟩
  | some j =>
    rw [hr] at h3; simp only [Option.toList_some] at h3
    cases hq : s.queue with
    | nil =>
      rw [hq] at h4; simp only [List.append_nil] at h4
      refine ⟨?_, ?_, ?_, ?_⟩ <;>
        simp only [finishTask, hr, processNextTask, hq, startsOf_append,
          finsOf_append, submsOf_append, startsOf_fin, finsOf_fin,
          submsOf_fin, List.append_nil, Option.toList_none,
          Option.isSome_none]
      · intro _; trivial
      · simp [h3]
      · simp [h4, h3]
    | cons k rest =>
      rw [hq] at h4
      refine ⟨?_, ?_, ?_, ?_⟩ <;>
        simp only [finishTask, hr, processNextTask, hq, startsOf_append,
          finsOf_append, submsOf_append, startsOf_fin, finsOf_fin,
          submsOf_fin, startsOf_start, finsOf_start, submsOf_start,
          List.append_nil, Option.toList_some, Option.isSome_some]
      · intro hf; exact absurd hf (by simp)
      · simp [h3]
      · simp [h4]

theorem qinv_foldl (evs : List SchedEv) (s : SchedState)
    (h : QInv s.up ∧ QInv s.gm) :
    QInv (evs.foldl schedStep s).up ∧ QInv (evs.foldl schedStep s).gm := by
  induction evs generalizing s with
  | nil => simpa using h
  | cons e rest ih =>
    refine ih _ ?_
    cases e with
    | submUp j => exact ⟨qinv_submitTask _ j h.1, h.2⟩
    | finUp => exact ⟨qinv_finishTask _ h.1, h.2⟩
    | submGm j => exact ⟨h.1, qinv_submitTask _ j h.2⟩
    | finGm => exact ⟨h.1, qinv_finishTask _ h.2⟩

theorem schedRun_inv (evs : List SchedEv) :
    QInv (schedRun evs).up ∧ QInv (schedRun evs).gm :=
  qinv_foldl evs schedInit ⟨qinv_init, qinv_init⟩

/-! ## The worker pool (`processFilesConcurrently`)

`processFilesConcurrently(files, handler)` spawns
`min(MAX_CONCURRENT_FILE_PROCESSING, files.length)` asynchronous workers
over a shared cursor; each worker loops: check the cursor against the
length, grab the current index and increment (no `await` separates check,
grab and increment, so the triple is atomic in the event loop), invoke the
handler (the only suspension point; its errors are caught), repeat; it
exits when the check fails, and the pool resolves when `Promise.all`
joins every worker.  The nondeterministic interleaving of the workers is
a labelled transition system. -/

inductive WStatus
  | idle
  | running (i : Nat)
  | done
deriving DecidableEq, Repr

structure PoolState where
  cursor : Nat
  workers : List WStatus
  trace : List Nat
deriving DecidableEq, Repr

/-- `Array.from({length: min(W, N)}, worker)` with cursor 0 and no handler
invoked yet.  `W = MAX_CONCURRENT_FILE_PROCESSING` is clamped to at least
1 by the source, but the model needs no such bound. -/
def poolInit (N W : Nat) : PoolState :=
  ⟨0, List.replicate (min W N) WStatus.idle, []⟩

/-- One scheduler step of the pool over a batch of `N` files: an idle
worker passes the cursor check, grabs the index and invokes the handler
(`grab`, appending the invoked index to the trace); an idle worker fails
the check and exits its loop (`exit`); a handler in flight returns or
throws, its error caught (`complete`). -/
inductive PoolStep (N : Nat) : PoolState → PoolState → Prop
  | grab (s : PoolState) (k : Nat) (h : s.workers[k]? = some WStatus.idle)
      (hc : s.cursor < N) :
      PoolStep N s
        ⟨s.cursor + 1, s.workers.set k (WStatus.running s.cursor),
         s.trace ++ [s.cursor]⟩
  | exit (s : PoolState) (k : Nat) (h : s.workers[k]? = some WStatus.idle)
      (hc : N ≤ s.cursor) :
      PoolStep N s ⟨s.cursor, s.workers.set k WStatus.done, s.trace⟩
  | complete (s : PoolState) (k i : Nat)
      (h : s.workers[k]? = some (WStatus.running i)) :
      PoolStep N s ⟨s.cursor, s.workers.set k WStatus.idle, s.trace⟩

/-- States the pool can reach on a batch of `N` files with worker bound
`W`. -/
inductive PoolReaches (N W : Nat) : PoolState → Prop
  | init : PoolReaches N W (poolInit N W)
  | step {s s' : PoolState} : PoolReaches N W s → PoolStep N s s' →
      PoolReaches N W s'

def isInFlight : WStatus → Bool
  | .running _ => true
  | _ => false

/-- Handlers in flight. -/
def inFlight (s : PoolState) : Nat := s.workers.countP isInFlight

/-- Pool invariant: the trace of handler invocations is exactly the
indices below the cursor in order, the cursor never passes the batch
length, the worker count is pinned at `min W N`, and a worker can only
have exited after the cursor reached the end. -/
def PoolInv (N W : Nat) (s : PoolState) : Prop :=
  s.trace = List.range s.cursor ∧
  s.cursor ≤ N ∧
  s.workers.length = min W N ∧
  (WStatus.done ∈ s.workers → N ≤ s.cursor)

theorem poolInv_init (N W : Nat) : PoolInv N W (poolInit N W) := by
  refine ⟨rfl, Nat.zero_le N, List.length_replicate _ _, ?_⟩
  intro hmem
  rcases List.eq_of_mem_replicate hmem with h
  cases h

theorem poolInv_step {N W : Nat} {s s' : PoolState} (h : PoolInv N W s)
    (hs : PoolStep N s s') : PoolInv N W s' := by
  obtain ⟨h1, h2, h3, h4⟩ := h
  cases hs with
  | grab k hk hc =>
    refine ⟨?_, hc, ?_, ?_⟩
    · simp [h1, List.range_succ]
    · simp [h3]
    · intro hmem
      rcases List.mem_or_eq_of_mem_set hmem with hmem | heq
      · exact absurd (h4 hmem) (by omega)
      · cases heq
  | exit k hk hc =>
    refine ⟨h1, h2, by simp [h3], fun _ => hc⟩
  | complete k i hk =>
    refine ⟨h1, h2, by simp [h3], ?_⟩
    intro hmem
    rcases List.mem_or_eq_of_mem_set hmem with hmem | heq
    · exact h4 hmem
    · cases heq

theorem poolInv_reaches {N W : Nat} {s : PoolState}
    (h : PoolReaches N W s) : PoolInv N W s := by
  induction h with
  | init => exact poolInv_init N W
  | step _ hs ih => exact poolInv_step ih hs

/-- In a terminal pool state every worker has exited, which forces the
cursor to the end of the batch. -/
theorem pool_terminal_cursor {N W : Nat} {s : PoolState}
    (h : PoolInv N W s) (hdone : ∀ w ∈ s.workers, w = WStatus.done)
    (hW : 1 ≤ W ∨ N = 0) : s.cursor = N := by
  obtain ⟨h1, h2, h3, h4⟩ := h
  rcases Nat.eq_zero_or_pos N with hN | hN
  · omega
  · rcases hW with hW | hW
    · have hlen : 0 < s.workers.length := by
        rw [h3]; exact lt_min_iff.mpr ⟨hW, hN⟩
      obtain ⟨w, hw⟩ := List.exists_mem_of_length_pos hlen
      have := h4 ((hdone w hw) ▸ hw)
      omega
    · omega

/-! ## The Gmail attachment classifier (`downloadGmailAttachments`)

One fetched message is modelled as its `From` and `Subject` header values
plus the MIME payload tree; `getParts` is the source's recursive
flattening.  Saving an attachment (the `attachments.get` +
`fs.writeFileSync` pair) is modelled by emitting its filename, in
processing order. -/

structure Part where
  filename : String
  mimeType : String
  attachmentId : Option String
deriving DecidableEq, Repr

/-- A MIME payload node: its own leaf data and, when present, the
`parts` array (JavaScript distinguishes an absent `parts` — the node is a
leaf — from a present, possibly empty, array, which is truthy). -/
inductive Payload where
  | node (part : Part) (children : Option (List Payload))

mutual

/-- Source `getParts(payload)`: with no `parts` array the payload itself
is the only part; otherwise each child is recursed into when it has its
own `parts` array and pushed as a leaf otherwise (equivalently: the
concatenation of `getParts` over the children). -/
def getParts : Payload → List Part
  | .node p none => [p]
  | .node _ (some cs) => getPartsList cs

/-- `getParts` mapped over a `parts` array, in order. -/
def getPartsList : List Payload → List Part
  | [] => []
  | c :: rest => getParts c ++ getPartsList rest
end

structure GMessage where
  sender : String
  subject : String
  payload : Option Payload

/-- The characters before the first `>` of the list, if any `>` exists. -/
def upToGt : List Char → Option (List Char)
  | [] => none
  | c :: t => if c == '>' then some [] else (upToGt t).map (c :: ·)

/-- `sender.match(/<(.+?)>/)`: the first `<` that is followed by at least
one character and then a `>` yields the (non-greedy) group between
them. -/
def senderEmailGroup : List Char → Option (List Char)
  | [] => none
  | c :: rest =>
    if c == '<' then
      match upToGt rest with
      | some (d :: g) => some (d :: g)
      | _ => senderEmailGroup rest
    else senderEmailGroup rest

def senderEmailOf (sender : String) : String :=
  match senderEmailGroup sender.data with
  | some g => ⟨g⟩
  | none => sender

/-- `sender.split('<')[0]`. -/
def beforeLt : List Char → List Char
  | [] => []
  | c :: t => if c == '<' then [] else c :: beforeLt t

def senderNameOf (sender : String) : String :=
  (String.mk (beforeLt sender.data)).trim

def positiveSubjectKeywords : List String :=
  ["קבלה", "חשבונית", "חשבונית מס", "הקבלה", "החשבונית",
   "החשבונית החודשית", "אישור תשלום", "receipt", "invoice", "חשבון חודשי"]

def excludedSenders : List String :=
  ["חברת חשמל לישראל", "עיריית תל אביב-יפו", "ארנונה - עיריית תל-אביב-יפו"]

def senderExceptionKeywords : List String :=
  ["קבלה", "חשבונית", "חשבונית מס", "הקבלה"]

def attachmentKeywords : List String := ["receipt", "חשבונית"]

/-- Source `isPdfFile(contentType, fileName)`. -/
def isPdfFile (contentType fileName : String) : Bool :=
  let normalizedContentType := strLower contentType
  let normalizedFileName := strLower fileName
  if normalizedContentType = "application/pdf" ||
      normalizedContentType = "application/x-pdf" ||
      normalizedContentType = "application/acrobat" ||
      normalizedContentType = "applications/vnd.pdf" ||
      normalizedContentType = "text/pdf" ||
      normalizedContentType = "text/x-pdf" ||
      strContains normalizedContentType "pdf" then true
  else if strEndsWith normalizedFileName ".pdf" then true
  else false

/-- A keyword loop `for (kw of kws) if (hay.includes(kw.toLowerCase()))`. -/
def anyKeywordIn (hay : String) (kws : List String) : Bool :=
  kws.any fun kw => strContains hay (strLower kw)

/-- `normalizedFileName` matches an attachment keyword. -/
def fnameMatches (p : Part) : Bool :=
  anyKeywordIn (strLower p.filename) attachmentKeywords

/-- The attachment-processing loop of `downloadGmailAttachments` for one
message, translated branch for branch; returns the filenames saved, in
order. -/
def savedFromMessage (m : GMessage) : List String :=
  let senderEmail := senderEmailOf m.sender
  let senderName := senderNameOf m.sender
  let lowerCaseSubject := strLower m.subject
  let isExcludedSender := excludedSenders.any fun ex =>
    strContains senderName ex || strContains senderEmail ex
  if isExcludedSender &&
      !(anyKeywordIn lowerCaseSubject senderExceptionKeywords) then []
  else
    let subjectMatchesPositiveKeywords :=
      anyKeywordIn lowerCaseSubject positiveSubjectKeywords
    match m.payload with
    | none => []
    | some payload =>
      let parts := getParts payload
      let receiptFoundInThread := parts.any fun part =>
        decide (part.filename ≠ "") && fnameMatches part
      parts.filterMap fun part =>
        if part.filename ≠ "" then
          match part.attachmentId with
          | none => none
          | some _ =>
            if isPdfFile part.mimeType part.filename then
              if subjectMatchesPositiveKeywords then
                if receiptFoundInThread then
                  if fnameMatches part then some part.filename else none
                else some part.filename
              else if fnameMatches part then some part.filename else none
            else none
        else none

/-- Source `downloadGmailAttachments`: the per-message loop over all
fetched messages; the saved files accumulate across messages. -/
def downloadGmailAttachments : List GMessage → List String
  | [] => []
  | m :: rest => savedFromMessage m ++ downloadGmailAttachments rest

/-! ### The classifier's declarative characterization (claim side) -/

/-- The flattened MIME parts of a message (empty when the payload is
absent). -/
def flatParts (m : GMessage) : List Part :=
  match m.payload with
  | none => []
  | some p => getParts p

/-- The message-level skip condition: an excluded sender whose subject
lacks every exception keyword. -/
def messageSkipped (m : GMessage) : Bool :=
  (excludedSenders.any fun ex =>
    strContains (senderNameOf m.sender) ex ||
      strContains (senderEmailOf m.sender) ex) &&
  !(anyKeywordIn (strLower m.subject) senderExceptionKeywords)

def subjectMatchesIn (m : GMessage) : Bool :=
  anyKeywordIn (strLower m.subject) positiveSubjectKeywords

/-- Some attachment filename in the message matches an attachment
keyword. -/
def threadHasKeywordName (m : GMessage) : Bool :=
  (flatParts m).any fun part => decide (part.filename ≠ "") && fnameMatches part

/-- The claim's saved-iff predicate for one attachment of one message:
the message is not skipped, the attachment is a PDF with a body
attachment id (and a filename), and the subject/filename decision table
holds: (a) subject matches and some filename in the message matches —
then its own filename must match; (b) subject matches and none matches —
saved unconditionally; (c) subject does not match — its own filename must
match. -/
def saveSpec (m : GMessage) (p : Part) : Bool :=
  !messageSkipped m &&
  decide (p.filename ≠ "") && p.attachmentId.isSome &&
  isPdfFile p.mimeType p.filename &&
  ((subjectMatchesIn m && threadHasKeywordName m && fnameMatches p) ||
   (subjectMatchesIn m && !threadHasKeywordName m) ||
   (!subjectMatchesIn m && fnameMatches p))

/-- The saved attachments the claim predicts: per message, the parts
satisfying `saveSpec`, in order. -/
def specSaved : List GMessage → List String
  | [] => []
  | m :: rest =>
    ((flatParts m).filter (saveSpec m)).map Part.filename ++ specSaved rest

theorem saveLoop_eq (m : GMessage) (hskip : messageSkipped m = false)
    (ps : List Part) :
    (ps.filterMap fun part =>
      if part.filename ≠ "" then
        match part.attachmentId with
        | none => none
        | some _ =>
          if isPdfFile part.mimeType part.filename then
            if subjectMatchesIn m then
              if threadHasKeywordName m then
                if fnameMatches part then some part.filename else none
              else some part.filename
            else if fnameMatches part then some part.filename else none
          else none
      else none) =
    (ps.filter (saveSpec m)).map Part.filename := by
  induction ps with
  | nil => rfl
  | cons p t ih =>
    have hspec : saveSpec m p =
        (decide (p.filename ≠ "") && p.attachmentId.isSome &&
          isPdfFile p.mimeType p.filename &&
          ((subjectMatchesIn m && threadHasKeywordName m && fnameMatches p) ||
           (subjectMatchesIn m && !threadHasKeywordName m) ||
           (!subjectMatchesIn m && fnameMatches p))) := by
      simp [saveSpec, hskip, Bool.and_assoc]
    rw [List.filterMap_cons, List.filter_cons, ih, hspec]
    by_cases h1 : p.filename = "" <;> cases hA : p.attachmentId <;>
      cases hP : isPdfFile p.mimeType p.filename <;>
      cases hsm : subjectMatchesIn m <;> cases hrf : threadHasKeywordName m <;>
      cases hF : fnameMatches p <;>
      simp [h1, hA, hP, hsm, hrf, hF]

theorem savedFromMessage_eq (m : GMessage) :
    savedFromMessage m = ((flatParts m).filter (saveSpec m)).map Part.filename := by
  rcases hp : m.payload with _ | payload
  · have hspec : flatParts m = [] := by simp [flatParts, hp]
    simp [savedFromMessage, hp, hspec]
  · by_cases hskip : messageSkipped m = true
    · have hskipE := hskip
      unfold messageSkipped at hskipE
      have hnil : (flatParts m).filter (saveSpec m) = [] := by
        apply List.filter_eq_nil_iff.mpr
        intro p _
        simp [saveSpec, hskip]
      simp only [savedFromMessage, hp, hskipE, hnil, List.map_nil, if_true]
    · have hskipF : messageSkipped m = false := by
        revert hskip; cases messageSkipped m <;> simp
      have hskipE := hskipF
      unfold messageSkipped at hskipE
      have hfp : flatParts m = getParts payload := by simp [flatParts, hp]
      simp only [savedFromMessage, hp, hskipE, Bool.false_eq_true, if_false]
      rw [show anyKeywordIn (strLower m.subject) positiveSubjectKeywords =
            subjectMatchesIn m from rfl]
      rw [show ((getParts payload).any fun part =>
            decide (part.filename ≠ "") && fnameMatches part) =
            threadHasKeywordName m from by
          rw [threadHasKeywordName, hfp]]
      rw [hfp]
      exact saveLoop_eq m hskipF (getParts payload)

/-- C7: the classifier saves an attachment if and only if the claim's
decision table admits it.  For every fetched message list, the saved
attachments are exactly those characterized by `saveSpec`: the message is
not from an excluded sender lacking an exception keyword in its subject
(such a message saves nothing), the part is an attachment (non-empty
filename) that is a PDF with a body attachment id, and either (a) the
subject matches a positive keyword and some attachment filename in the
message matches an attachment keyword — then its own filename must also
match; or (b) the subject matches and no filename matched — saved
unconditionally; or (c) the subject does not match — its own filename
must match an attachment keyword. -/
theorem downloadGmail_eq_spec (msgs : List GMessage) :
    downloadGmailAttachments msgs = specSaved msgs := by
  induction msgs with
  | nil => rfl
  | cons m rest ih =>
    simp only [downloadGmailAttachments, specSaved, ih,
      savedFromMessage_eq m]

/-! ## Claim theorems -/

/-- C1: for every interleaving of submissions and job completions on the
two task queues, each queue is single-flight and FIFO: the `isProcessing`
flag mirrors exactly one running job (or none); an idle queue holds no
pending jobs; every started job except the one currently running has
already reached a terminal state, and jobs finish in the order they
started (`startsOf = finsOf ++ running`); the started jobs followed by the
still-pending queue are exactly the submissions in submission order — so
job N+1 never begins before job N finishes, nothing is skipped,
duplicated or reordered, and at any time at most one more job has started
than has finished.  Steps on the Gmail queue leave the upload queue's
state untouched and vice versa: the two queues are independent. -/
theorem upload_gmail_queues_fifo_serial (evs : List SchedEv) :
    QInv (schedRun evs).up ∧ QInv (schedRun evs).gm ∧
    (startsOf (schedRun evs).up.trace).length ≤
      (finsOf (schedRun evs).up.trace).length + 1 ∧
    (startsOf (schedRun evs).gm.trace).length ≤
      (finsOf (schedRun evs).gm.trace).length + 1 ∧
    (∀ (s : SchedState) (j : Nat), (schedStep s (SchedEv.submGm j)).up = s.up) ∧
    (∀ s : SchedState, (schedStep s SchedEv.finGm).up = s.up) ∧
    (∀ (s : SchedState) (j : Nat), (schedStep s (SchedEv.submUp j)).gm = s.gm) ∧
    (∀ s : SchedState, (schedStep s SchedEv.finUp).gm = s.gm) := by
  obtain ⟨hu, hg⟩ := schedRun_inv evs
  refine ⟨hu, hg, ?_, ?_, fun s j => rfl, fun s => rfl, fun s j => rfl,
    fun s => rfl⟩
  · rw [hu.2.2.1, List.length_append]
    cases (schedRun evs).up.running <;> simp
  · rw [hg.2.2.1, List.length_append]
    cases (schedRun evs).gm.running <;> simp

/-- C2: on a batch of `N` files with configured worker bound `W ≥ 1`, in
every reachable pool state the trace of per-file handler invocations is
exactly the indices `0..cursor-1` in order — no index ever invoked twice,
none skipped, all below `N` — at most `min W N` handlers are in flight,
and once every worker has joined (the `Promise.all` return point) the
trace is exactly `0..N-1`: exactly `N` invocations. -/
theorem pool_handler_exactly_once (N W : Nat) (hW : 1 ≤ W) (s : PoolState)
    (h : PoolReaches N W s) :
    s.trace = List.range s.cursor ∧ s.cursor ≤ N ∧
    inFlight s ≤ min W N ∧
    ((∀ w ∈ s.workers, w = WStatus.done) → s.trace = List.range N) := by
  obtain ⟨h1, h2, h3, h4⟩ := poolInv_reaches h
  refine ⟨h1, h2, ?_, ?_⟩
  · calc inFlight s ≤ s.workers.length := List.countP_le_length _
      _ = min W N := h3
  · intro hdone
    rw [h1, pool_terminal_cursor ⟨h1, h2, h3, h4⟩ hdone (Or.inl hW)]

theorem pool_handler_exactly_once_witness :
    (PoolState.mk 2 [WStatus.done, WStatus.done] [0, 1]).trace =
      List.range 2 ∧
    inFlight (PoolState.mk 2 [WStatus.done, WStatus.done] [0, 1]) ≤ min 3 2 := by
  have r0 : PoolReaches 2 3 (poolInit 2 3) := PoolReaches.init
  have r1 : PoolReaches 2 3 ⟨1, [WStatus.running 0, WStatus.idle], [0]⟩ :=
    r0.step (PoolStep.grab (poolInit 2 3) 0 rfl (by decide))
  have r2 : PoolReaches 2 3
      ⟨2, [WStatus.running 0, WStatus.running 1], [0, 1]⟩ :=
    r1.step (PoolStep.grab _ 1 rfl (by decide))
  have r3 : PoolReaches 2 3 ⟨2, [WStatus.idle, WStatus.running 1], [0, 1]⟩ :=
    r2.step (PoolStep.complete _ 0 0 rfl)
  have r4 : PoolReaches 2 3 ⟨2, [WStatus.done, WStatus.running 1], [0, 1]⟩ :=
    r3.step (PoolStep.exit _ 0 rfl (by decide))
  have r5 : PoolReaches 2 3 ⟨2, [WStatus.done, WStatus.idle], [0, 1]⟩ :=
    r4.step (PoolStep.complete _ 1 1 rfl)
  have r6 : PoolReaches 2 3 ⟨2, [WStatus.done, WStatus.done], [0, 1]⟩ :=
    r5.step (PoolStep.exit _ 1 rfl (by decide))
  have h := pool_handler_exactly_once 2 3 (by decide) _ r6
  exact ⟨h.2.2.2 (by decide), h.2.2.1⟩

def pstate0 : PState := ⟨[], [], Calls.zero⟩

/-- Identical content everywhere: an encrypted PDF whose unlock fails
(`unlockPdf` returns `null`), so `processFile` yields `null` and nothing
is cached. -/
def envDup : Env :=
  ⟨⟨2025, 1, 1⟩, fun _ => some "h1", fun _ => true, fun _ => false,
   fun _ => none⟩

/-- C3 counterexample: two files with identical content (the environment
answers identically for both, same checksum) whose first processing
fails to unlock: `processFile` returns `null`, the falsy result is not
cached, and the second occurrence runs the whole pipeline — and the
unlock collaborator — again.  `processFile` is invoked twice for one
content, contradicting "at most once". -/
theorem dedup_at_most_once_counterexample :
    (runBatch envDup 200 pstate0
      ["locked.pdf", "locked.pdf"]).1.calls.processFileCalls = 2 ∧
    (runBatch envDup 200 pstate0
      ["locked.pdf", "locked.pdf"]).1.calls.unlockCalls = 2 ∧
    envDup.checksum "locked.pdf" = envDup.checksum "locked.pdf" :=
  ⟨rfl, rfl, rfl⟩

theorem processFile_cache_eq (env : Env) (f : String) (st : PState) :
    ((processFile env f st).2).cache = st.cache := by
  unfold processFile parseReceiptWithDocumentAI
  split_ifs <;> cases env.annotate f <;> rfl

theorem cacheLookup_append_last (c : List (String × JSObj)) (h : String)
    (v : JSObj) (hmiss : cacheLookup c h = none) :
    cacheLookup (c ++ [(h, v)]) h = some v := by
  induction c with
  | nil => simp [cacheLookup]
  | cons a t ih =>
    rcases a with ⟨k2, v2⟩
    simp only [List.cons_append]
    unfold cacheLookup at hmiss ⊢
    split_ifs at hmiss ⊢ with hk
    exact ih hmiss

theorem lookup_remember_fresh (limit : Nat) (c : List (String × JSObj))
    (h : String) (v : JSObj) (hh : h ≠ "")
    (hmiss : cacheLookup c h = none) (hlim : 1 ≤ limit) :
    cacheLookup (rememberCacheEntry limit c h v) h = some v := by
  unfold rememberCacheEntry
  rw [if_neg hh]
  simp only [hmiss, Option.isSome_none, Bool.false_eq_true, if_false]
  split_ifs with hev
  · cases c with
    | nil => simp at hev; omega
    | cons a t =>
      simp only [List.cons_append, List.tail_cons]
      apply cacheLookup_append_last
      rcases a with ⟨k2, v2⟩
      unfold cacheLookup at hmiss
      split_ifs at hmiss
      exact hmiss
  · exact cacheLookup_append_last c h v hmiss

/-- C3, amended: the dedup guarantee as the code provides it.  If a
file's checksum is computed, the hash misses the cache, and the pipeline
returns a truthy result, then that result is stored under the content
hash (the cache limit is at least 1, as `PROCESSED_FILE_CACHE_LIMIT`
guarantees), and processing any file with the same content bytes (same
checksum) afterwards is resolved entirely from the cache: it returns the
identical object and leaves the whole pipeline state — including the
unlock and annotator call counters — unchanged, so a cache hit calls
neither collaborator.  (As the counterexample shows, a `null` first
result is not cached and identical content is then reprocessed; eviction
from the bounded cache likewise re-enables reprocessing.) -/
theorem dedup_cache_hit_amended (env : Env) (limit : Nat) (st st1 : PState)
    (f1 f2 h : String) (v : JSObj) (hh : h ≠ "")
    (hchk1 : env.checksum f1 = some h) (hchk2 : env.checksum f2 = some h)
    (hmiss : cacheLookup st.cache h = none) (hlim : 1 ≤ limit)
    (hrun : getExpenseDataWithCache env limit st f1 = (ProcResult.obj v, st1)) :
    cacheLookup st1.cache h = some v ∧
    getExpenseDataWithCache env limit st1 f2 = (ProcResult.obj v, st1) := by
  have hfirst : cacheLookup st1.cache h = some v := by
    unfold getExpenseDataWithCache at hrun
    simp only [hchk1, hmiss] at hrun
    rcases hpf : processFile env f1 st with ⟨res, st2⟩
    rw [hpf] at hrun
    cases res with
    | nullv => simp at hrun
    | obj w =>
      simp only [Prod.mk.injEq, ProcResult.obj.injEq] at hrun
      obtain ⟨hw, hst⟩ := hrun
      rw [← hst, ← hw]
      show cacheLookup (rememberCacheEntry limit st2.cache h w) h = some w
      have hc2 : st2.cache = st.cache := by
        have hpc := processFile_cache_eq env f1 st
        rw [hpf] at hpc
        exact hpc
      rw [hc2]
      exact lookup_remember_fresh limit st.cache h w hh hmiss hlim
  refine ⟨hfirst, ?_⟩
  unfold getExpenseDataWithCache
  simp only [hchk2, hfirst]

def envOkJpg : Env :=
  ⟨⟨2025, 1, 1⟩, fun _ => some "hB", fun _ => false, fun _ => false,
   fun _ => some ⟨[], "iw"⟩⟩

def recB : ExpenseRecord :=
  ⟨"r.jpg", "", "", "2025-01-01", "", none, none, none, none, "ILS", "iw"⟩

def st1B : PState := ⟨[("hB", JSObj.record recB)], [], ⟨1, 0, 1⟩⟩

theorem dedup_cache_hit_amended_witness :
    cacheLookup st1B.cache "hB" = some (JSObj.record recB) ∧
    getExpenseDataWithCache envOkJpg 200 st1B "r.jpg" =
      (ProcResult.obj (JSObj.record recB), st1B) :=
  dedup_cache_hit_amended envOkJpg 200 pstate0 st1B "r.jpg" "r.jpg" "hB"
    (JSObj.record recB) (by decide) rfl rfl rfl (by decide) rfl

/-- C10: when computing the content checksum fails (`getFileChecksum`
rejects — notably, the server file never imports the `crypto` module, so
at runtime `crypto.createHash` throws and every call takes this path),
`getExpenseDataWithCache` catches the error and still processes the file
by calling `processFile` directly, returning its result; the error is
not propagated, and the cache is left untouched (the result is not
stored). -/
theorem checksum_failure_bypasses_cache (env : Env) (limit : Nat)
    (st : PState) (f : String) (hchk : env.checksum f = none) :
    getExpenseDataWithCache env limit st f = processFile env f st ∧
    ((getExpenseDataWithCache env limit st f).2).cache = st.cache := by
  have h1 : getExpenseDataWithCache env limit st f = processFile env f st := by
    unfold getExpenseDataWithCache
    simp only [hchk]
  exact ⟨h1, by rw [h1]; exact processFile_cache_eq env f st⟩

def envNoHash : Env :=
  ⟨⟨2025, 1, 1⟩, fun _ => none, fun _ => false, fun _ => false,
   fun _ => some ⟨[], "iw"⟩⟩

theorem checksum_failure_bypasses_cache_witness :
    getExpenseDataWithCache envNoHash 200 pstate0 "r.jpg" =
      processFile envNoHash "r.jpg" pstate0 ∧
    ((getExpenseDataWithCache envNoHash 200 pstate0 "r.jpg").2).cache =
      pstate0.cache :=
  checksum_failure_bypasses_cache envNoHash 200 pstate0 "r.jpg" rfl

/-! ### Per-file failure handling (C4) -/

theorem listModify_length (f : α → α) (n : Nat) (l : List α) :
    (listModify f n l).length = l.length := by
  induction l generalizing n with
  | nil => cases n <;> rfl
  | cons x t ih =>
    cases n with
    | zero => simp [listModify]
    | succ m => simp [listModify, ih]

theorem listModify_get_ne (f : α → α) (n j : Nat) (l : List α) (h : j ≠ n) :
    (listModify f n l)[j]? = l[j]? := by
  induction l generalizing n j with
  | nil => cases n <;> rfl
  | cons x t ih =>
    cases n with
    | zero =>
      cases j with
      | zero => omega
      | succ jj => simp [listModify]
    | succ m =>
      cases j with
      | zero => simp [listModify]
      | succ jj =>
        simp only [listModify, List.getElem?_cons_succ]
        exact ih m jj (by omega)

theorem listModify_get_self (f : α → α) (n : Nat) (l : List α) :
    (listModify f n l)[n]? = (l[n]?).map f := by
  induction l generalizing n with
  | nil => cases n <;> rfl
  | cons x t ih =>
    cases n with
    | zero => simp [listModify]
    | succ m => simp [listModify, ih]

theorem perFileHandler_length (env : Env) (limit : Nat) (st : PState)
    (prog : List FileProg) (exps : List JSObj) (i : Nat) (f : String) :
    (perFileHandler env limit (st, prog, exps) i f).2.1.length =
      prog.length := by
  unfold perFileHandler
  rcases hge : getExpenseDataWithCache env limit st f with ⟨res, st2⟩
  simp only [hge]
  cases res <;> simp [listModify_length]

theorem perFileHandler_status (env : Env) (limit : Nat) (st : PState)
    (prog : List FileProg) (exps : List JSObj) (i : Nat) (f : String)
    (hi : i < prog.length) :
    ∃ fp, (perFileHandler env limit (st, prog, exps) i f).2.1[i]? = some fp ∧
      ((getExpenseDataWithCache env limit st f).1 = ProcResult.nullv →
        fp.status = FStatus.failed ∧ fp.progress = 100) ∧
      (∀ v, (getExpenseDataWithCache env limit st f).1 = ProcResult.obj v →
        fp.status = FStatus.completed ∧ fp.progress = 100) := by
  unfold perFileHandler
  rcases hge : getExpenseDataWithCache env limit st f with ⟨res, st2⟩
  simp only [hge]
  have hp0 : prog[i]? = some prog[i] := List.getElem?_eq_getElem hi
  cases res with
  | nullv =>
    refine ⟨⟨prog[i].fileName, FStatus.failed, 100, prog[i].businessName⟩,
      ?_, fun _ => ⟨rfl, rfl⟩, fun v hv => ProcResult.noConfusion hv⟩
    simp [listModify_get_self, hp0]
  | obj v =>
    refine ⟨⟨prog[i].fileName, FStatus.completed, 100,
      displayBusinessName v⟩,
      ?_, fun hn => ProcResult.noConfusion hn, fun w hw => ⟨rfl, rfl⟩⟩
    simp [listModify_get_self, hp0]

theorem runBatchFrom_get_lt (env : Env) (limit : Nat) (fs : List String)
    (i : Nat) (acc : PState × List FileProg × List JSObj) (j : Nat)
    (hj : j < i) :
    (runBatchFrom env limit fs i acc).2.1[j]? = acc.2.1[j]? := by
  induction fs generalizing i acc with
  | nil => rfl
  | cons f rest ih =>
    rw [runBatchFrom, ih (i + 1) _ (by omega)]
    rcases acc with ⟨st, prog, exps⟩
    unfold perFileHandler
    rcases hge : getExpenseDataWithCache env limit st f with ⟨res, st2⟩
    simp only [hge]
    cases res <;>
      simp [listModify_get_ne _ _ _ _ (show j ≠ i by omega)]

theorem runBatchFrom_length (env : Env) (limit : Nat) (fs : List String)
    (i : Nat) (acc : PState × List FileProg × List JSObj) :
    (runBatchFrom env limit fs i acc).2.1.length = acc.2.1.length := by
  induction fs generalizing i acc with
  | nil => rfl
  | cons f rest ih =>
    rw [runBatchFrom, ih]
    rcases acc with ⟨st, prog, exps⟩
    exact perFileHandler_length env limit st prog exps i f

theorem runBatchFrom_terminal (env : Env) (limit : Nat) (fs : List String) :
    ∀ (i : Nat) (acc : PState × List FileProg × List JSObj) (j : Nat),
      i ≤ j → j < i + fs.length → j < acc.2.1.length →
      ∃ fp, (runBatchFrom env limit fs i acc).2.1[j]? = some fp ∧
        (fp.status = FStatus.completed ∨ fp.status = FStatus.failed) := by
  induction fs with
  | nil =>
    intro i acc j h1 h2 h3
    simp only [List.length_nil] at h2
    omega
  | cons f rest ih =>
    intro i acc j h1 h2 h3
    simp only [List.length_cons] at h2
    rw [runBatchFrom]
    rcases acc with ⟨st, prog, exps⟩
    by_cases hj : j = i
    · subst hj
      rw [runBatchFrom_get_lt env limit rest (j + 1) _ j (by omega)]
      obtain ⟨fp, hfp, hn, ho⟩ :=
        perFileHandler_status env limit st prog exps j f h3
      refine ⟨fp, hfp, ?_⟩
      cases hres : (getExpenseDataWithCache env limit st f).1 with
      | nullv => exact Or.inr (hn hres).1
      | obj v => exact Or.inl (ho v hres).1
    · apply ih (i + 1) _ j (by omega) (by omega)
      rw [perFileHandler_length]
      simpa using h3

/-- A PDF that is not encrypted but whose Document AI request errors. -/
def envAnnotErr : Env :=
  ⟨⟨2025, 1, 1⟩, fun _ => some "hE", fun _ => false, fun _ => false,
   fun _ => none⟩

/-- C4 counterexample: for a file whose annotator request errors, the
source returns the empty object `{}` — which is truthy — so the per-file
handler records `Completed` (with `'N/A'` display fields), not `Failed`,
even though the annotator collaborator call failed (it was attempted
exactly once). -/
theorem per_file_failure_counterexample :
    (runBatch envAnnotErr 200 pstate0 ["err.pdf"]).2.1.map
      FileProg.status = [FStatus.completed] ∧
    (runBatch envAnnotErr 200 pstate0 ["err.pdf"]).1.calls.annotateCalls = 1 ∧
    (runBatch envAnnotErr 200 pstate0 ["err.pdf"]).2.1.map
        FileProg.status ≠ [FStatus.failed] :=
  ⟨rfl, rfl, by decide⟩

/-- C4 amended: what the code actually guarantees about per-file
failures.  (1) `processFile` returns the falsy `null` exactly when the
file is an encrypted PDF whose unlock fails; an annotator error instead
yields the truthy `{}`.  (2) The per-file handler records `Failed` (with
progress 100) at the file's own index when the pipeline returned `null`,
and `Completed` when it returned any truthy object.  (3) A failure never
aborts the rest of the batch: a batch run keeps one progress entry per
file and every file's entry ends in a terminal `Completed`-or-`Failed`
status. -/
theorem per_file_failure_amended (env : Env) (limit : Nat) :
    (∀ (f : String) (st : PState),
      (processFile env f st).1 = ProcResult.nullv ↔
        (isPdfName f = true ∧ env.encrypted f = true ∧
          env.unlockOk f = false)) ∧
    (∀ (st : PState) (prog : List FileProg) (exps : List JSObj) (i : Nat)
        (f : String), i < prog.length →
      ∃ fp, (perFileHandler env limit (st, prog, exps) i f).2.1[i]? = some fp ∧
        ((getExpenseDataWithCache env limit st f).1 = ProcResult.nullv →
          fp.status = FStatus.failed ∧ fp.progress = 100) ∧
        (∀ v, (getExpenseDataWithCache env limit st f).1 = ProcResult.obj v →
          fp.status = FStatus.completed ∧ fp.progress = 100)) ∧
    (∀ (st : PState) (files : List String),
      (runBatch env limit st files).2.1.length = files.length ∧
      (∀ j, j < files.length →
        ∃ fp, (runBatch env limit st files).2.1[j]? = some fp ∧
          (fp.status = FStatus.completed ∨ fp.status = FStatus.failed))) := by
  refine ⟨?_, ?_, ?_⟩
  · intro f st
    unfold processFile parseReceiptWithDocumentAI
    cases env.annotate f <;> split_ifs <;> simp_all
  · intro st prog exps i f hi
    exact perFileHandler_status env limit st prog exps i f hi
  · intro st files
    constructor
    · rw [runBatch, runBatchFrom_length]
      simp [initProg]
    · intro j hj
      apply runBatchFrom_terminal env limit files 0 _ j (by omega) (by omega)
      simp [initProg]
      omega

theorem per_file_failure_amended_witness :
    ((processFile envDup "locked.pdf" pstate0).1 = ProcResult.nullv ↔
      (isPdfName "locked.pdf" = true ∧
        envDup.encrypted "locked.pdf" = true ∧
        envDup.unlockOk "locked.pdf" = false)) ∧
    (runBatch envDup 200 pstate0 ["locked.pdf"]).2.1.length = 1 :=
  ⟨(per_file_failure_amended envDup 200).1 "locked.pdf" pstate0,
   ((per_file_failure_amended envDup 200).2.2 pstate0 ["locked.pdf"]).1⟩

/-! ### Currency conversion (C5) -/

/-- The exchange rate the conversion pass ends up using: the per-date
cache entry when present and truthy, otherwise a fresh
`getUsdToIlsExchangeRate` fetch. -/
def usedRate (rc : RateCache) (d : String) : ℚ :=
  match rcLookup rc d with
  | some r => if r == 0 then getUsdToIlsExchangeRate d else r
  | none => getUsdToIlsExchangeRate d

theorem rcLookup_rcSet_self (rc : RateCache) (k : String) (v : ℚ) :
    rcLookup (rcSet rc k v) k = some v := by
  induction rc with
  | nil => simp [rcSet, rcLookup]
  | cons a t ih =>
    rcases a with ⟨k2, v2⟩
    unfold rcSet
    split_ifs with hk
    · simp [rcLookup]
    · unfold rcLookup
      rw [if_neg hk]
      exact ih

/-- C5 counterexample: for the claim's own scenario — an entity list with
a foreign `Total-Price` of `"$120.00"` and a `Date` entity —
`OriginalTotalUSD` does not retain the pre-conversion foreign total
(120): the code only accumulates `Price-Without-Vat` amounts into
`originalUSD`, so the field is set to 0.  (`TotalPrice` is converted to
420 = 120 × 3.5 and `Currency` becomes `"ILS"` as claimed.) -/
theorem currency_original_total_counterexample :
    ((normalizeDoc ⟨2025, 1, 1⟩ "f.pdf"
        ⟨[⟨"Date", "10/04/2024", none⟩, ⟨"Total-Price", "$120.00", none⟩],
         "en"⟩ []).1.OriginalTotalUSD = some 0) ∧
    cleanAndParseAmount "$120.00" = 120 ∧
    ((normalizeDoc ⟨2025, 1, 1⟩ "f.pdf"
        ⟨[⟨"Date", "10/04/2024", none⟩, ⟨"Total-Price", "$120.00", none⟩],
         "en"⟩ []).1.TotalPrice = some 420) ∧
    ((normalizeDoc ⟨2025, 1, 1⟩ "f.pdf"
        ⟨[⟨"Date", "10/04/2024", none⟩, ⟨"Total-Price", "$120.00", none⟩],
         "en"⟩ []).1.Currency = "ILS") ∧
    some (0 : ℚ) ≠ some (120 : ℚ) := by
  refine ⟨by decide, by decide, by decide, rfl, by decide⟩

/-- C5 amended: for a document carrying a `Date` entity and
`Price-Without-Vat` / `VAT` / `Total-Price` entities where the
`Total-Price` text is detected as USD, the normalizer resolves the
exchange rate for the normalized invoice date — reusing a truthy
process-lifetime cache entry (no fetch) or fetching and caching it —
multiplies the excluding-tax, tax and total amounts by that rate, sets
`Currency` to `"ILS"`, and stores in `OriginalTotalUSD` the sum of the
foreign `Price-Without-Vat` amounts (not the pre-conversion foreign
total). -/
theorem currency_conversion_amended (today : YMD)
    (fn lang ds as bs ts : String) (rc : RateCache) (hds : ds ≠ "")
    (hts : detectCurrency ts lang = "USD") :
    ((normalizeDoc today fn
        ⟨[⟨"Date", ds, none⟩, ⟨"Price-Without-Vat", as, none⟩,
          ⟨"VAT", bs, none⟩, ⟨"Total-Price", ts, none⟩], lang⟩ rc).1 =
      { FileName := fn, BusinessName := "", BusinessNumber := "",
        Date := normalizeInvoiceDate today ds, InvoiceNumber := "",
        OriginalTotalUSD := some (cleanAndParseAmount as),
        PriceWithoutVat := some (cleanAndParseAmount as *
          usedRate rc (normalizeInvoiceDate today ds)),
        VAT := some (cleanAndParseAmount bs *
          usedRate rc (normalizeInvoiceDate today ds)),
        TotalPrice := some (cleanAndParseAmount ts *
          usedRate rc (normalizeInvoiceDate today ds)),
        Currency := "ILS", Language := lang }) ∧
    (rcLookup
      (normalizeDoc today fn
        ⟨[⟨"Date", ds, none⟩, ⟨"Price-Without-Vat", as, none⟩,
          ⟨"VAT", bs, none⟩, ⟨"Total-Price", ts, none⟩], lang⟩ rc).2.1
      (normalizeInvoiceDate today ds) =
      some (usedRate rc (normalizeInvoiceDate today ds))) ∧
    (∀ r, rcLookup rc (normalizeInvoiceDate today ds) = some r →
      (r == 0) = false →
      (normalizeDoc today fn
        ⟨[⟨"Date", ds, none⟩, ⟨"Price-Without-Vat", as, none⟩,
          ⟨"VAT", bs, none⟩, ⟨"Total-Price", ts, none⟩], lang⟩ rc).2.2 = 0) ∧
    (rcLookup rc (normalizeInvoiceDate today ds) = none →
      (normalizeDoc today fn
        ⟨[⟨"Date", ds, none⟩, ⟨"Price-Without-Vat", as, none⟩,
          ⟨"VAT", bs, none⟩, ⟨"Total-Price", ts, none⟩], lang⟩ rc).2.2 = 1) := by
  have hdsb : (ds == "") = false := beq_eq_false_iff_ne.mpr hds
  have hscan : scanPass lang
      [⟨"Date", ds, none⟩, ⟨"Price-Without-Vat", as, none⟩,
       ⟨"VAT", bs, none⟩, ⟨"Total-Price", ts, none⟩] false "" = (true, ds) := by
    by_cases c1 : (detectCurrency ds lang == "USD") = true <;>
      by_cases c2 : (detectCurrency as lang == "USD") = true <;>
        by_cases c3 : (detectCurrency bs lang == "USD") = true <;>
          simp [scanPass, entityValue, c1, c2, c3, hdsb, hts,
            Bool.not_eq_true]
  simp only [normalizeDoc, hscan, hdsb, Bool.false_eq_true, if_false,
    Bool.if_true_left]
  cases hrl : rcLookup rc (normalizeInvoiceDate today ds) with
  | none =>
    simp [fieldsPass, entityValue, usedRate, hrl, rcLookup_rcSet_self]
  | some r =>
    by_cases hr0 : (r == 0) = true
    · have hr0' : r = 0 := eq_of_beq hr0
      subst hr0'
      simp [fieldsPass, entityValue, usedRate, hrl, rcLookup_rcSet_self]
    · simp only [Bool.not_eq_true] at hr0
      simp [fieldsPass, entityValue, usedRate, hrl, hr0]

theorem currency_conversion_amended_witness :
    rcLookup
      (normalizeDoc ⟨2025, 1, 1⟩ "f.pdf"
        ⟨[⟨"Date", "10/04/2024", none⟩,
          ⟨"Price-Without-Vat", "$100.00", none⟩, ⟨"VAT", "$17.50", none⟩,
          ⟨"Total-Price", "$120.00", none⟩], "en"⟩ []).2.1
      (normalizeInvoiceDate ⟨2025, 1, 1⟩ "10/04/2024") =
      some (usedRate [] (normalizeInvoiceDate ⟨2025, 1, 1⟩ "10/04/2024")) :=
  (currency_conversion_amended ⟨2025, 1, 1⟩ "f.pdf" "en" "10/04/2024"
    "$100.00" "$17.50" "$120.00" [] (by decide) (by decide)).2.1

/-! ### Date normalization (C6) -/

theorem firstParse_eq_of_split (fs1 fs2 : List DFmt) (f : DFmt)
    (s : String) (d : YMD)
    (h1 : ∀ g ∈ fs1, parseWithFormat g s = none)
    (h2 : parseWithFormat f s = some d) :
    firstParse (fs1 ++ f :: fs2) s = some d := by
  induction fs1 with
  | nil => simp [firstParse, h2]
  | cons g t ih =>
    have hg : parseWithFormat g s = none := h1 g (by simp)
    simp only [List.cons_append, firstParse, hg]
    exact ih fun x hx => h1 x (by simp [hx])

theorem scanPass_no_date (lang : String) :
    ∀ (ents : List Entity) (b : Bool),
      (∀ e ∈ ents, e.etype ≠ "Date") →
      (scanPass lang ents b "").2 = "" := by
  intro ents
  induction ents with
  | nil => intro b _; rfl
  | cons e t ih =>
    intro b h
    have he : (e.etype == "Date") = false :=
      beq_eq_false_iff_ne.mpr (h e (List.mem_cons_self e t))
    unfold scanPass
    simp only [he, Bool.false_and, Bool.false_eq_true, if_false,
      beq_self_eq_true, Bool.not_true, Bool.and_false]
    exact ih _ fun x hx => h x (List.mem_cons_of_mem _ hx)

theorem fieldsPass_date (hasUSD : Bool) (rate : ℚ) :
    ∀ (ents : List Entity) (rec : ExpenseRecord) (o c : ℚ),
      ((fieldsPass hasUSD rate ents rec o c).1).Date = rec.Date := by
  intro ents
  induction ents with
  | nil => intro rec o c; rfl
  | cons e t ih =>
    intro rec o c
    unfold fieldsPass
    split_ifs <;> simp [ih]

theorem normalizeDoc_no_date (today : YMD) (fn : String)
    (doc : AnnotatorDoc) (rc : RateCache)
    (h : ∀ e ∈ doc.entities, e.etype ≠ "Date") :
    (normalizeDoc today fn doc rc).1.Date = formatYMD today := by
  unfold normalizeDoc
  rcases hscan : scanPass doc.primaryLanguage doc.entities false ""
    with ⟨hU, d⟩
  have hd : d = "" := by
    have h0 := scanPass_no_date doc.primaryLanguage doc.entities false h
    rw [hscan] at h0
    exact h0
  subst hd
  simp only [hscan, beq_self_eq_true, if_true, if_pos rfl]
  cases hU <;> simp [fieldsPass_date]

/-- C6: the date-normalization fallback chain.  The format list is
exactly `yyyy-MM-dd`, `MM/dd/yyyy`, `dd/MM/yyyy`, `dd-MM-yyyy`,
`MM-dd-yyyy`, `yyyy/MM/dd`, `dd.MM.yyyy`, `yyyy.MM.dd`, `MMMM dd, yyyy`,
`MMM dd, yyyy`, in that order; the first format that parses wins (stated
for an arbitrary split of the list); the ambiguous `"10/04/2024"`
resolves via `MM/dd/yyyy` to October 4 (while `dd/MM/yyyy` alone would
read April 10) and renders as `"2024-10-04"`; if no format parses, or no
`Date` entity exists at all, the current processing date is used. -/
theorem date_format_chain (today : YMD) :
    dateFormats.map fmtText =
      ["yyyy-MM-dd", "MM/dd/yyyy", "dd/MM/yyyy", "dd-MM-yyyy",
       "MM-dd-yyyy", "yyyy/MM/dd", "dd.MM.yyyy", "yyyy.MM.dd",
       "MMMM dd, yyyy", "MMM dd, yyyy"] ∧
    (∀ (s : String) (d : YMD) (fs1 fs2 : List DFmt) (f : DFmt),
      dateFormats = fs1 ++ f :: fs2 →
      (∀ g ∈ fs1, parseWithFormat g s = none) →
      parseWithFormat f s = some d →
      firstParse dateFormats s = some d) ∧
    firstParse dateFormats "10/04/2024" = some ⟨2024, 10, 4⟩ ∧
    parseWithFormat DFmt.mdySlash "10/04/2024" = some ⟨2024, 10, 4⟩ ∧
    parseWithFormat DFmt.dmySlash "10/04/2024" = some ⟨2024, 4, 10⟩ ∧
    normalizeInvoiceDate today "10/04/2024" = "2024-10-04" ∧
    (∀ s : String, firstParse dateFormats s = none →
      normalizeInvoiceDate today s = formatYMD today) ∧
    (∀ (fn : String) (doc : AnnotatorDoc) (rc : RateCache),
      (∀ e ∈ doc.entities, e.etype ≠ "Date") →
      (normalizeDoc today fn doc rc).1.Date = formatYMD today) := by
  refine ⟨rfl, ?_, by decide, by decide, by decide, ?_, ?_, ?_⟩
  · intro s d fs1 fs2 f hsplit h1 h2
    rw [hsplit]
    exact firstParse_eq_of_split fs1 fs2 f s d h1 h2
  · unfold normalizeInvoiceDate
    have : firstParse dateFormats "10/04/2024" = some ⟨2024, 10, 4⟩ := by
      decide
    rw [this]
    rfl
  · intro s hs
    unfold normalizeInvoiceDate
    rw [hs]
  · intro fn doc rc h
    exact normalizeDoc_no_date today fn doc rc h

theorem date_format_chain_witness :
    firstParse dateFormats "nonsense" = none ∧
    normalizeInvoiceDate ⟨2025, 6, 7⟩ "nonsense" = formatYMD ⟨2025, 6, 7⟩ ∧
    (normalizeDoc ⟨2025, 6, 7⟩ "f.pdf"
      ⟨[⟨"Total-Price", "12 ILS", none⟩], "iw"⟩ []).1.Date =
      formatYMD ⟨2025, 6, 7⟩ := by
  refine ⟨by decide, ?_, ?_⟩
  · exact (date_format_chain ⟨2025, 6, 7⟩).2.2.2.2.2.2.1 "nonsense"
      (by decide)
  · exact (date_format_chain ⟨2025, 6, 7⟩).2.2.2.2.2.2.2 "f.pdf"
      ⟨[⟨"Total-Price", "12 ILS", none⟩], "iw"⟩ [] (by decide)

/-! ### The processed-file cache bound and recency (C8) -/

def cacheTwo : List (String × JSObj) := [("h1", JSObj.empty), ("h2", JSObj.empty)]

def envHitH1 : Env :=
  ⟨⟨2025, 1, 1⟩, fun _ => some "h1", fun _ => false, fun _ => false,
   fun _ => none⟩

/-- C8 counterexample: a cache hit does not refresh recency.  Looking up
the oldest key `"h1"` through `getExpenseDataWithCache` returns the
cached value but leaves the cache exactly as it was — whereas refreshing
recency (delete-then-reinsert, as `rememberCacheEntry` does on writes)
would produce a different order — and a subsequent insertion at capacity
then evicts the just-hit key `"h1"` rather than `"h2"`. -/
theorem cache_hit_recency_counterexample :
    (getExpenseDataWithCache envHitH1 2 ⟨cacheTwo, [], Calls.zero⟩
      "a.pdf").2.cache = cacheTwo ∧
    eraseKey cacheTwo "h1" ++ [("h1", JSObj.empty)] ≠ cacheTwo ∧
    cacheLookup (rememberCacheEntry 2 cacheTwo "h3" JSObj.empty) "h1" =
      none :=
  ⟨rfl, by decide, rfl⟩

theorem eraseKey_length_of_mem (c : List (String × JSObj)) (k : String)
    (hk : (cacheLookup c k).isSome = true) :
    (eraseKey c k).length + 1 = c.length := by
  induction c with
  | nil => simp [cacheLookup] at hk
  | cons a t ih =>
    rcases a with ⟨k2, v2⟩
    unfold cacheLookup at hk
    unfold eraseKey
    split_ifs at hk ⊢ with h2
    · simp
    · simp only [List.length_cons]
      rw [← ih hk]

theorem tail_append_of_ne_nil (c : List (String × JSObj))
    (x : String × JSObj) (hc : c ≠ []) :
    (c ++ [x]).tail = c.tail ++ [x] := by
  cases c with
  | nil => exact absurd rfl hc
  | cons a t => rfl

/-- C8 amended: the cache never holds more than the configured capacity
after an insertion; inserting a fresh key at capacity evicts the
oldest-inserted key (the head of the insertion order); re-inserting an
existing key refreshes that key's recency (delete-then-append); but a
cache hit — a read through `getExpenseDataWithCache` — returns the
cached value and leaves the cache (and the whole pipeline state)
completely unchanged: recency is not refreshed on hits. -/
theorem cache_bound_amended (limit : Nat) (c : List (String × JSObj))
    (k : String) (v : JSObj) (hlim : 1 ≤ limit) (hc : c.length ≤ limit) :
    (rememberCacheEntry limit c k v).length ≤ limit ∧
    (k ≠ "" → cacheLookup c k = none → c.length = limit →
      rememberCacheEntry limit c k v = c.tail ++ [(k, v)]) ∧
    (k ≠ "" → (cacheLookup c k).isSome = true →
      rememberCacheEntry limit c k v = eraseKey c k ++ [(k, v)]) ∧
    (∀ (env : Env) (st : PState) (f h : String) (w : JSObj),
      env.checksum f = some h → cacheLookup st.cache h = some w →
      getExpenseDataWithCache env limit st f = (ProcResult.obj w, st)) := by
  refine ⟨?_, ?_, ?_, ?_⟩
  · unfold rememberCacheEntry
    by_cases hk : k = ""
    · rw [if_pos hk]
      exact hc
    · rw [if_neg hk]
      by_cases hsome : (cacheLookup c k).isSome = true
      · have he := eraseKey_length_of_mem c k hsome
        simp only [hsome, if_true]
        split_ifs with hev
        · rw [List.length_tail]
          simp only [List.length_append, List.length_singleton] at hev ⊢
          omega
        · simp only [List.length_append, List.length_singleton] at hev ⊢
          omega
      · rw [Bool.not_eq_true] at hsome
        simp only [hsome, Bool.false_eq_true, if_false]
        split_ifs with hev
        · rw [List.length_tail]
          simp only [List.length_append, List.length_singleton] at hev ⊢
          omega
        · simp only [List.length_append, List.length_singleton] at hev ⊢
          omega
  · intro hk hnone hlen
    unfold rememberCacheEntry
    rw [if_neg hk]
    simp only [hnone, Option.isSome_none, Bool.false_eq_true, if_false]
    rw [if_pos (by simp [List.length_append]; omega)]
    exact tail_append_of_ne_nil c (k, v) (by
      intro hnil
      rw [hnil] at hlen
      simp at hlen
      omega)
  · intro hk hsome
    unfold rememberCacheEntry
    rw [if_neg hk]
    simp only [hsome, if_true]
    rw [if_neg (by
      have he := eraseKey_length_of_mem c k hsome
      simp only [List.length_append, List.length_singleton]
      omega)]
  · intro env st f h w hchk hhit
    unfold getExpenseDataWithCache
    simp only [hchk, hhit]

theorem cache_bound_amended_witness :
    (rememberCacheEntry 2 cacheTwo "h3" JSObj.empty).length ≤ 2 ∧
    rememberCacheEntry 2 cacheTwo "h3" JSObj.empty =
      cacheTwo.tail ++ [("h3", JSObj.empty)] :=
  ⟨(cache_bound_amended 2 cacheTwo "h3" JSObj.empty (by decide)
      (by decide)).1,
   (cache_bound_amended 2 cacheTwo "h3" JSObj.empty (by decide)
      (by decide)).2.1 (by decide) rfl rfl⟩

/-! ### The spreadsheet totals row (C9) -/

def expUSD : ExpenseRecord :=
  ⟨"a.pdf", "ACME", "12", "2024-01-01", "7", some 100, some 10, some 2,
   some 350, "ILS", "en"⟩

/-- C9 counterexample: for a single expense carrying an original-USD
total of 100, the generated totals row's `OriginalTotalUSD` cell is
empty — the source computes `totalOriginalUSD` (here 100) but never
writes it into the totals `addRow` — so the totals row does not sum the
fourth numeric column as claimed. -/
theorem excel_totals_counterexample :
    (createExpenseExcel [expUSD]).2.OriginalTotalUSD = none ∧
    (excelLoop [expUSD] [] 0 0 0 0).2.2.2.2 = 100 ∧
    (createExpenseExcel [expUSD]).1.length = 1 ∧
    (none : Option ℚ) ≠ some 100 :=
  ⟨rfl, by decide, rfl, by decide⟩

theorem excelLoop_spec (expenses : List ExpenseRecord) :
    ∀ (rows : List SheetRow) (tw tv tp tu : ℚ),
      excelLoop expenses rows tw tv tp tu =
        (rows ++ expenses.map expenseDataRow,
         tw + (expenses.map fun e => numOrZero e.PriceWithoutVat).sum,
         tv + (expenses.map fun e => numOrZero e.VAT).sum,
         tp + (expenses.map fun e => numOrZero e.TotalPrice).sum,
         tu + (expenses.map fun e => numOrZero e.OriginalTotalUSD).sum) := by
  induction expenses with
  | nil =>
    intro rows tw tv tp tu
    simp [excelLoop]
  | cons e t ih =>
    intro rows tw tv tp tu
    unfold excelLoop
    rw [ih]
    simp [add_assoc]

/-- C9 amended: the worksheet holds exactly one data row per
ExpenseRecord (in order), and the totals row sums three of the four
numeric columns — pre-tax amount, tax amount and total amount — while
the original-foreign-total column's cell in the totals row is left empty
(the accumulated `totalOriginalUSD` is never written). -/
theorem excel_totals_amended (expenses : List ExpenseRecord) :
    (createExpenseExcel expenses).1 = expenses.map expenseDataRow ∧
    (createExpenseExcel expenses).1.length = expenses.length ∧
    (createExpenseExcel expenses).2.FileName = "Total" ∧
    (createExpenseExcel expenses).2.PriceWithoutVat =
      some ((expenses.map fun e => numOrZero e.PriceWithoutVat).sum) ∧
    (createExpenseExcel expenses).2.VAT =
      some ((expenses.map fun e => numOrZero e.VAT).sum) ∧
    (createExpenseExcel expenses).2.TotalPrice =
      some ((expenses.map fun e => numOrZero e.TotalPrice).sum) ∧
    (createExpenseExcel expenses).2.OriginalTotalUSD = none := by
  unfold createExpenseExcel
  rw [excelLoop_spec]
  simp

end Kabalot
